import Mathlib

/-!
# Verification development for `bin/sens.py`

A shallow embedding, in Lean 4, of the mutation/sampling engine and the
recovery-statistics engine of `bin/sens.py` (an alignment-tool sensitivity
harness), together with theorems settling the specification's claims about it.

Conventions of the embedding:
* Python strings are `List Char`; Python ints are `Int`/`Nat`; Python floats
  (used only for the identity-floor arithmetic) are `ℚ`, computed exactly.
* Python dictionaries are association lists with unique keys.
* The process-wide pseudo-random generator is an explicit stream of naturals
  (`RNG`); `random.randint`/`random.choice` reduce the next stream value.
* Rejection-sampling loops of the source, which terminate only with
  probability 1, take an explicit fuel and return `none` when it runs out;
  `none` stands for a run of the Python code that never terminates (or raises).
-/

namespace Sens

/-- Explicit stream of pseudo-random naturals: the process-wide `random`
generator of the source, made explicit. `f` is the stream, `i` the cursor. -/
structure RNG where
  f : Nat → Nat
  i : Nat

/-- Draw the next raw value from the stream. -/
def RNG.next (g : RNG) : Nat × RNG :=
  (g.f g.i, ⟨g.f, g.i + 1⟩)

/-- `random.randint(lo, hi)`: uniform integer in `[lo, hi]` (both inclusive).
Faithful for `lo ≤ hi`, the precondition under which Python does not raise. -/
def randint (lo hi : Nat) (g : RNG) : Nat × RNG :=
  let (v, g') := g.next
  (lo + v % (hi + 1 - lo), g')

/-- `random.choice(['A', 'C', 'G', 'T'])`. -/
def choiceACGT (g : RNG) : Char × RNG :=
  let (v, g') := g.next
  (['A', 'C', 'G', 'T'].getD (v % 4) 'A', g')

/-! ## Recovery Collector (`RecoveryChecker`, sens.py:510-564)

A SAM record, after the purely syntactic splitting done by
`string.split(l, '\t', 10)` and the read-name parsing
`rfseq, sc_ex = string.split(nm, '_')` of `RecoveryChecker.run`.
`wire` is the non-negative integer written after the `_` in the read name
(the negated expected score, per the outbound interface); `flags` is the SAM
flags field; `seq` the SEQ field; `asTag` the value of the `AS:i:` tag when
the regex `AS:i:(-?[0-9]+)` matches the line, else `none`. -/
structure SamRec where
  wire : Nat
  flags : Nat
  seq : List Char
  asTag : Option Int
deriving DecidableEq

/-- `sc_ex = -int(sc_ex)` (sens.py:542): the expected score of a record. -/
def scEx (r : SamRec) : Int := -(r.wire : Int)

/-- A record the collector can process without a parse error: if the read
aligned (flag bit 4 clear) then the `AS:i:` tag is present (sens.py:546-549
would raise on a match failure otherwise). -/
def wellFormed (r : SamRec) : Prop := r.flags &&& 4 = 0 → r.asTag.isSome = true

instance (r : SamRec) : Decidable (wellFormed r) := by
  unfold wellFormed; infer_instance

/-- The reported score as the collector leaves it in `as_i`: parsed only when
the read aligned, `None` otherwise (sens.py:543-549). -/
def asParsed (r : SamRec) : Option Int :=
  if r.flags &&& 4 = 0 then r.asTag else none

/-- The `succ` flag computed for one record (sens.py:537-554): `none` models
the fatal parse error on an aligned record without an `AS:i:` tag. -/
def succOf (r : SamRec) : Option Bool :=
  if r.flags &&& 4 = 0 then
    match r.asTag with
    | some a => some (decide (scEx r ≤ a))
    | none => none
  else some false

/-- The claim's "recovered" condition as a boolean: aligned and reported
score at least the expected score. -/
def recoveredB (r : SamRec) : Bool :=
  decide (r.flags &&& 4 = 0) &&
    (match r.asTag with
     | some a => decide (scEx r ≤ a)
     | none => false)

/-- `res[k][0 if succ else 1] += 1` on a dictionary that maps `k` to a
`[correct, incorrect]` pair, inserting `[0, 0]` first when `k` is absent
(sens.py:555-560); dictionaries are association lists with unique keys. -/
def bumpTally {κ : Type} [DecidableEq κ] :
    List (κ × Nat × Nat) → κ → Bool → List (κ × Nat × Nat)
  | [], k, s => [(k, if s then (1, 0) else (0, 1))]
  | (k', c) :: t, k, s =>
    if k = k' then
      (k', if s then (c.1 + 1, c.2) else (c.1, c.2 + 1)) :: t
    else (k', c) :: bumpTally t k s

/-- Lookup in a tally, defaulting to `(0, 0)` (value of an absent key). -/
def lookup0 {κ : Type} [DecidableEq κ] (m : List (κ × Nat × Nat)) (k : κ) :
    Nat × Nat :=
  ((m.find? fun e => decide (e.1 = k)).getD (k, 0, 0)).2

/-- State of the `RecoveryChecker` thread: the two tallies, plus the list of
arguments that were passed to the caller-supplied sink callback (the third
component stands for the raw record `l`). -/
structure CheckerState where
  resBySc : List (Int × Nat × Nat)
  resByScLen : List ((Int × Nat) × Nat × Nat)
  sinkCalls : List (Int × Option Int × SamRec)
deriving DecidableEq

/-- The empty state the collector starts from (sens.py:525-526). -/
def emptyState : CheckerState := ⟨[], [], []⟩

/-- Consuming one non-header record in `RecoveryChecker.run`
(sens.py:533-564). `hasSink` models `self.sink is not None`; when it holds,
the sink is called with `(sc_ex, as_i, l)` for the record — the source calls
it unconditionally at sens.py:563-564. -/
def stepRec (hasSink : Bool) (st : CheckerState) (r : SamRec) :
    Option CheckerState :=
  match succOf r with
  | none => none
  | some succ =>
    some { resBySc := bumpTally st.resBySc (scEx r) succ
           resByScLen := bumpTally st.resByScLen (scEx r, r.seq.length) succ
           sinkCalls :=
             if hasSink then st.sinkCalls ++ [(scEx r, asParsed r, r)]
             else st.sinkCalls }

/-- Draining a stream of (well-formed, non-header) records. -/
def runRecs (hasSink : Bool) (st : CheckerState) : List SamRec → Option CheckerState
  | [] => some st
  | r :: rs =>
    match stepRec hasSink st r with
    | none => none
    | some st' => runRecs hasSink st' rs

/-- `samSink` (sens.py:582-587): the surprise-log write, as the message's
payload; `none` when the guard `(as_i is None or as_i < sc_ex) and
sc_ex >= -6` rejects the record and nothing is written. -/
def samSinkWrite (sc_ex : Int) (as_i : Option Int) (r : SamRec) :
    Option (Int × Option Int × SamRec) :=
  if ((match as_i with
       | none => true
       | some a => decide (a < sc_ex)) && decide (-6 ≤ sc_ex)) = true then
    some (sc_ex, as_i, r)
  else none

/-- The claim's "qualifying failure": not recovered (unaligned, or reported
score below expected) with expected score at or above the -6 severity
threshold. -/
def qualFail (sc_ex : Int) (as_i : Option Int) : Bool :=
  (match as_i with
   | none => true
   | some a => decide (a < sc_ex)) && decide (-6 ≤ sc_ex)

/-- Total number of classified records in a tally. -/
def tallyTotal (m : List (Int × Nat × Nat)) : Nat :=
  (m.map fun e => e.2.1 + e.2.2).sum

/-! ### Output tables (sens.py:566-580) -/

/-- Insertion of one element into a list sorted by `le`. -/
def insertLe {α : Type} (le : α → α → Bool) (x : α) : List α → List α
  | [] => [x]
  | y :: ys => if le x y then x :: y :: ys else y :: insertLe le x ys

/-- Sorting by `le` (Python's `sorted`/`list.sort`; only the ordering and the
multiset of elements matter to the theorems below, not the algorithm). -/
def isort {α : Type} (le : α → α → Bool) (l : List α) : List α :=
  l.foldr (insertLe le) []

/-- Maximum of a list of ints, as Python's `max` on a non-empty list. -/
def listMaxI : List Int → Int
  | [] => 0
  | x :: xs => xs.foldl max x

/-- Minimum of a list of ints, as Python's `min` on a non-empty list. -/
def listMinI : List Int → Int
  | [] => 0
  | x :: xs => xs.foldl min x

/-- Keys of a tally (`res_by_sc.iterkeys()`). -/
def tallyKeys (m : List (Int × Nat × Nat)) : List Int := m.map (·.1)

/-- `writeRecoveryTable` (sens.py:566-570): one row `(sc, cor, incor)` per
key, in ascending key order. -/
def flatTable (m : List (Int × Nat × Nat)) : List (Int × Nat × Nat) :=
  (isort (fun a b => decide (a ≤ b)) (tallyKeys m)).map fun k => (k, lookup0 m k)

/-- `xrange(hi, lo - 1, -1)`: the integers from `hi` down to `lo`. -/
def descRange (hi lo : Int) : List Int :=
  (List.range (hi + 1 - lo).toNat).map fun t : Nat => hi - (t : Int)

/-- The loop body of `writeCumulativeRecoveryTable` (sens.py:572-580): each
row shows the cumulative counts BEFORE adding the current score's counts. -/
def cumGo (m : List (Int × Nat × Nat)) :
    List Int → Nat → Nat → List (Int × Nat × Nat)
  | [], _, _ => []
  | sc :: rest, cc, ic =>
    (sc, cc, ic) :: cumGo m rest (cc + (lookup0 m sc).1) (ic + (lookup0 m sc).2)

/-- `writeCumulativeRecoveryTable` (sens.py:572-580): rows from the best
(highest) score down to the worst, with cumulative counts accumulated from
strictly better scores. -/
def cumTable (m : List (Int × Nat × Nat)) : List (Int × Nat × Nat) :=
  cumGo m (descRange (listMaxI (tallyKeys m)) (listMinI (tallyKeys m))) 0 0

/-- A concrete aligned record (expected score -3, reported -3: recovered),
used by witnesses. -/
def wRec1 : SamRec := ⟨3, 0, ['A'], some (-3)⟩

/-- A concrete unaligned record (expected score -2), used by witnesses. -/
def wRec2 : SamRec := ⟨2, 4, ['A', 'C'], none⟩

/-! ## Scoring model and Combination Index (`Scoring`, `Mutator.addCombo`,
`Mutator.setupCombos`, sens.py:91-106, 214-283) -/

/-- `Scoring` (sens.py:91-106): match bonus, mismatch penalty (min, max),
N penalty, affine read-gap and reference-gap penalties `(open, extend)`. -/
structure Scoring where
  ma : Int
  mmp : Int × Int
  np : Int
  rdg : Int × Int
  rfg : Int × Int

/-- The score `addCombo` (sens.py:221-223) assigns to an edit combo
`(nmm, nrdg, nrfg)`: worst-case mismatch penalty, each gap modeled as a
length-1 gap (open + one extension). -/
def comboScore (s : Scoring) (c : Nat × Nat × Nat) : Int :=
  (c.1 : Int) * s.mmp.2 + (c.2.1 : Int) * (s.rdg.1 + s.rdg.2) +
    (c.2.2 : Int) * (s.rfg.1 + s.rfg.2)

/-- Innermost loop of `setupCombos` (sens.py:257-263): enumerate ref-gap
counts `k` upward from the given `k`, breaking as soon as the cumulative
identity `id2 - k/L` falls below `minId`. The fuel is the loop bound
`max_rfgaps + 1`; float arithmetic is modeled exactly over `ℚ`. -/
def loopK (minId : ℚ) (L : Nat) (i j : Nat) (id2 : ℚ) :
    Nat → Nat → List (Nat × Nat × Nat)
  | _, 0 => []
  | k, fuel + 1 =>
    if id2 - (k : ℚ) / (L : ℚ) < minId then []
    else (i, j, k) :: loopK minId L i j id2 (k + 1) fuel

/-- Middle loop of `setupCombos` (sens.py:252-263): read-gap counts `j`. -/
def loopJ (minId : ℚ) (L : Nat) (me i : Nat) (id1 : ℚ) :
    Nat → Nat → List (Nat × Nat × Nat)
  | _, 0 => []
  | j, fuel + 1 =>
    if id1 - (j : ℚ) / (L : ℚ) < minId then []
    else
      loopK minId L i j (id1 - (j : ℚ) / (L : ℚ)) 0 (me + 1) ++
        loopJ minId L me i id1 (j + 1) fuel

/-- Outer loop of `setupCombos` (sens.py:247-263): mismatch counts `i`,
starting from identity `idq` (1.0 in the source). -/
def loopI (minId : ℚ) (L : Nat) (me : Nat) (idq : ℚ) :
    Nat → Nat → List (Nat × Nat × Nat)
  | _, 0 => []
  | i, fuel + 1 =>
    if idq - (i : ℚ) / (L : ℚ) < minId then []
    else
      loopJ minId L me i (idq - (i : ℚ) / (L : ℚ)) 0 (me + 1) ++
        loopI minId L me idq (i + 1) fuel

/-- `max_edits = int(math.ceil(maxRdLen * (1.0 - minId)))` (sens.py:240). -/
def maxEditsFor (minId : ℚ) (L : Nat) : Nat :=
  (Int.ceil ((L : ℚ) * (1 - minId))).toNat

/-- The combos enumerated by `Mutator.setupCombos` (sens.py:240-263), in
enumeration order (before sorting). -/
def setupCombos (minId : ℚ) (L : Nat) : List (Nat × Nat × Nat) :=
  loopI minId L (maxEditsFor minId L) 1 0 (maxEditsFor minId L + 1)

/-- Lexicographic comparison of `(nedit, sc, nmm, nrdg, nrfg)` tuples, the
order Python's `sort` uses on `combos_by_nedit` entries. -/
def tupLeN (a b : Nat × Int × Nat × Nat × Nat) : Bool :=
  if a.1 ≠ b.1 then decide (a.1 < b.1)
  else if a.2.1 ≠ b.2.1 then decide (a.2.1 < b.2.1)
  else if a.2.2.1 ≠ b.2.2.1 then decide (a.2.2.1 < b.2.2.1)
  else if a.2.2.2.1 ≠ b.2.2.2.1 then decide (a.2.2.2.1 < b.2.2.2.1)
  else decide (a.2.2.2.2 ≤ b.2.2.2.2)

/-- Lexicographic comparison of `(sc, nedit, nmm, nrdg, nrfg)` tuples, the
order Python's `sort` uses on `combos_by_score` entries. -/
def tupLeS (a b : Int × Nat × Nat × Nat × Nat) : Bool :=
  if a.1 ≠ b.1 then decide (a.1 < b.1)
  else if a.2.1 ≠ b.2.1 then decide (a.2.1 < b.2.1)
  else if a.2.2.1 ≠ b.2.2.1 then decide (a.2.2.1 < b.2.2.1)
  else if a.2.2.2.1 ≠ b.2.2.2.1 then decide (a.2.2.2.1 < b.2.2.2.1)
  else decide (a.2.2.2.2 ≤ b.2.2.2.2)

/-- `combos_by_nedit` after `setupCombos` sorts it (sens.py:229, 267):
`(nedit, sc, nmm, nrdg, nrfg)` tuples in ascending lexicographic order. -/
def combosByNedit (s : Scoring) (minId : ℚ) (L : Nat) :
    List (Nat × Int × Nat × Nat × Nat) :=
  isort tupLeN
    ((setupCombos minId L).map fun c =>
      (c.1 + c.2.1 + c.2.2, comboScore s c, c.1, c.2.1, c.2.2))

/-- `combos_by_score` after `setupCombos` sorts it (sens.py:230, 272). -/
def combosByScore (s : Scoring) (minId : ℚ) (L : Nat) :
    List (Int × Nat × Nat × Nat × Nat) :=
  isort tupLeS
    ((setupCombos minId L).map fun c =>
      (comboScore s c, c.1 + c.2.1 + c.2.2, c.1, c.2.1, c.2.2))

/-- `max_elt = bisect.bisect_left(combos_by_nedit, (max_edits+1, None, ...))`
(sens.py:372): on the nedit-sorted list this is the number of combos whose
edit count is at most `max_edits` (Python 2 orders `None` below every int). -/
def neditMaxElt (s : Scoring) (minId : ℚ) (L : Nat) (rdLen : Nat) : Nat :=
  (combosByNedit s minId L).countP fun e =>
    decide (e.1 ≤ maxEditsFor minId rdLen)

/-- The `sampling == "nedit"` branch of `Mutator.mutate` (sens.py:374-383):
pick a combo uniformly among those with an acceptable edit count for this
read's length, and return the read UNMUTATED together with the combo's score
(the mutation step is an unimplemented TODO in the source). -/
def mutateNedit (s : Scoring) (minId : ℚ) (L : Nat) (rd : List Char)
    (g : RNG) : List Char × Int :=
  let max_elt := neditMaxElt s minId L rd.length
  let (v, _) := randint 0 (max_elt - 1) g
  let combo := (combosByNedit s minId L).getD v (0, 0, 0, 0, 0)
  (rd, combo.2.1)

/-! ## Edit Applier (`MyMutableString`, sens.py:163-190, and
`Mutator.__addEdits`, sens.py:285-360) -/

/-- `MyMutableString(s)` (sens.py:167-170): a list of one-character slots. -/
def mstrOf (s : List Char) : List (List Char) := s.map fun c => [c]

/-- `str(rd)` = `''.join(self.slist)` (sens.py:172-173). -/
def mstrStr (sl : List (List Char)) : List Char := sl.flatten

/-- `rd.get(i)` (sens.py:189-190). -/
def mstrGet (sl : List (List Char)) (i : Nat) : List Char := sl.getD i []

/-- `rd.set(i, s)` (sens.py:185-187). -/
def mstrSet (sl : List (List Char)) (i : Nat) (s : List Char) :
    List (List Char) := sl.set i s

/-- `rd.delete(i)` (sens.py:178-183): tombstone slot `i` by emptying it,
leaving every other index stable. -/
def mstrDelete (sl : List (List Char)) (i : Nat) : List (List Char) :=
  mstrSet sl i []

/-- One rejection loop `while len(s) < n: s.add(randint(lo, hi))`
(sens.py:316-325). The Python set is kept as a duplicate-free list in
insertion order; `none` models a run whose fuel (number of draws) runs out
before the set reaches size `n`. -/
def fillSet (lo hi n : Nat) : Nat → List Nat → RNG → Option (List Nat × RNG)
  | 0, s, g => if n ≤ s.length then some (s, g) else none
  | fuel + 1, s, g =>
    if n ≤ s.length then some (s, g)
    else
      fillSet lo hi n fuel
        (if (randint lo hi g).1 ∈ s then s else s ++ [(randint lo hi g).1])
        (randint lo hi g).2

/-- `c = choice(ACGT)` then `while c == origc: c = choice(ACGT)`
(sens.py:331-333). -/
def pickDiffChar (origc : Char) : Nat → RNG → Option (Char × RNG)
  | 0, _ => none
  | fuel + 1, g =>
    if (choiceACGT g).1 = origc then pickDiffChar origc fuel (choiceACGT g).2
    else some ((choiceACGT g).1, (choiceACGT g).2)

/-- `for mm in mmset:` (sens.py:328-334): assert the slot holds a single
character, then overwrite it with a random different base. -/
def applyMMs :
    List Nat → List (List Char) → Nat → RNG → Option (List (List Char) × RNG)
  | [], sl, _, g => some (sl, g)
  | mm :: rest, sl, fuel, g =>
    if (mstrGet sl mm).length = 1 then
      match pickDiffChar ((mstrGet sl mm).headD 'A') fuel g with
      | none => none
      | some (c, g') => applyMMs rest (mstrSet sl mm [c]) fuel g'
    else none

/-- Descending sort, `sorted(..., reverse=True)` (sens.py:338). -/
def sortDesc (l : List Nat) : List Nat := isort (fun a b => decide (b ≤ a)) l

/-- The gap pass (sens.py:338-343): for each position in the descending-
sorted concatenation of the read-gap and ref-gap lists, tombstone its slot
when it is a read gap, then prepend a random base to its slot when it is a
ref gap. -/
def gapFold :
    List Nat → List Nat → List Nat → List (List Char) → RNG →
      List (List Char) × RNG
  | [], _, _, sl, g => (sl, g)
  | gapi :: rest, rdgs, rfgs, sl, g =>
    let sl1 := if gapi ∈ rdgs then mstrDelete sl gapi else sl
    if gapi ∈ rfgs then
      gapFold rest rdgs rfgs
        (mstrSet sl1 gapi ((choiceACGT g).1 :: mstrGet sl1 gapi))
        (choiceACGT g).2
    else gapFold rest rdgs rfgs sl1 g

/-- One iteration of the `while True` attempt loop of `Mutator.__addEdits`
(sens.py:305-343), up to but excluding the score check: draw the mismatch,
read-gap and ref-gap position sets, apply the mismatches, then the gaps. -/
def attemptOnce (orig : List Char) (nmm nrdg nrfg fuel : Nat) (g : RNG) :
    Option (List (List Char) × RNG) :=
  match fillSet 0 (orig.length - 1) nmm fuel [] g with
  | none => none
  | some (mmset, g1) =>
    match fillSet 0 (orig.length - 1) nrdg fuel [] g1 with
    | none => none
    | some (rdgset, g2) =>
      match fillSet 1 (orig.length - 1) nrfg fuel [] g2 with
      | none => none
      | some (rfgset, g3) =>
        match applyMMs mmset (mstrOf orig) fuel g3 with
        | none => none
        | some (sl1, g4) =>
          some (gapFold (sortDesc (rdgset ++ rfgset)) rdgset rfgset sl1 g4)

/-- The attempt loop of `Mutator.__addEdits` (sens.py:302-360). `ga` is the
external Alignment Oracle call of sens.py:348 applied to the mutated
candidate and the original; `rem` counts the attempts remaining out of
`maxAttempts`. When the attempts run out, the ORIGINAL sequence is returned
with success = false (sens.py:309-310); without verification the first
completed attempt is accepted (sens.py:356-357). -/
def addEditsGo (ga : List Char → List Char → Int) (orig : List Char)
    (sc : Int) (nmm nrdg nrfg fuel : Nat) (checkScore : Bool) :
    Nat → RNG → Option (List Char × Bool)
  | 0, _ => some (orig, false)
  | rem + 1, g =>
    match attemptOnce orig nmm nrdg nrfg fuel g with
    | none => none
    | some (sl, g') =>
      if checkScore then
        if ga (mstrStr sl) orig = sc then some (mstrStr sl, true)
        else addEditsGo ga orig sc nmm nrdg nrfg fuel checkScore rem g'
      else some (mstrStr sl, true)

/-- `Mutator.__addEdits(orig_rd, sc, nmm, nrdg, nrfg, maxAttempts,
checkScore)` (sens.py:285-360). -/
def addEdits (ga : List Char → List Char → Int) (orig : List Char) (sc : Int)
    (nmm nrdg nrfg maxAttempts : Nat) (checkScore : Bool) (g : RNG)
    (fuel : Nat) : Option (List Char × Bool) :=
  addEditsGo ga orig sc nmm nrdg nrfg fuel checkScore maxAttempts g

/-- Modelled from the spec: the Alignment Oracle
(`global_align.globalAlign`, imported at sens.py:26 from a module that is
not part of this repository; spec section 6 specifies it as a pure function
returning the exact optimal global alignment score). Exact optimal score
under a per-position substitution cost and linear per-position read-gap and
ref-gap costs. -/
def galign (cost : Char → Char → Int) (dg ig : Int) :
    List Char → List Char → Int
  | [], [] => 0
  | _ :: x, [] => dg + galign cost dg ig x []
  | [], _ :: y => ig + galign cost dg ig [] y
  | a :: x, b :: y =>
    min (cost a b + galign cost dg ig x y)
      (min (dg + galign cost dg ig x (b :: y))
        (ig + galign cost dg ig (a :: x) y))
termination_by x y => x.length + y.length

/-- The substitution cost `lambda x, y: mmp if x != y else 0` passed to the
oracle at sens.py:348. -/
def gaCost (mmp : Int) (a b : Char) : Int := if a ≠ b then mmp else 0

/-! ### Lemmas about the collector -/

lemma lookup0_bumpTally_self {κ : Type} [DecidableEq κ]
    (m : List (κ × Nat × Nat)) (k : κ) (s : Bool) :
    lookup0 (bumpTally m k s) k =
      if s then ((lookup0 m k).1 + 1, (lookup0 m k).2)
      else ((lookup0 m k).1, (lookup0 m k).2 + 1) := by
  induction m with
  | nil => cases s <;> simp [bumpTally, lookup0]
  | cons e t ih =>
    obtain ⟨k', c⟩ := e
    by_cases h : k = k'
    · subst h
      cases s <;> simp [bumpTally, lookup0]
    · have h' : ¬(k' = k) := fun hh => h hh.symm
      cases s <;>
        simpa [bumpTally, lookup0, h, h'] using ih

lemma tallyTotal_bumpTally (m : List (Int × Nat × Nat)) (k : Int) (s : Bool) :
    tallyTotal (bumpTally m k s) = tallyTotal m + 1 := by
  induction m with
  | nil => cases s <;> simp [bumpTally, tallyTotal]
  | cons e t ih =>
    obtain ⟨k', c⟩ := e
    by_cases h : k = k'
    · subst h
      cases s <;> simp [bumpTally, tallyTotal] <;> omega
    · simp only [bumpTally, if_neg h, tallyTotal, List.map_cons, List.sum_cons]
      have := ih
      simp only [tallyTotal] at this
      omega

lemma succOf_eq_recoveredB (r : SamRec) (hwf : wellFormed r) :
    succOf r = some (recoveredB r) := by
  unfold succOf recoveredB
  by_cases h4 : r.flags &&& 4 = 0
  · have := hwf h4
    cases hA : r.asTag with
    | none => rw [hA] at this; simp at this
    | some a => simp [h4, hA]
  · simp [h4]

lemma stepRec_eq (hs : Bool) (st : CheckerState) (r : SamRec)
    (hwf : wellFormed r) :
    stepRec hs st r = some
      { resBySc := bumpTally st.resBySc (scEx r) (recoveredB r)
        resByScLen := bumpTally st.resByScLen (scEx r, r.seq.length) (recoveredB r)
        sinkCalls :=
          if hs then st.sinkCalls ++ [(scEx r, asParsed r, r)]
          else st.sinkCalls } := by
  unfold stepRec
  rw [succOf_eq_recoveredB r hwf]

/-- C3: a well-formed non-header record is tallied as recovered — in both the
per-expected-score tally and the per-(expected-score, read-length) tally —
iff its unaligned flag (bit 4) is clear and the reported `AS:i` score is at
least the expected score parsed from the read identifier; otherwise both
incorrect counters are incremented. -/
theorem record_tallied_recovered_iff (hs : Bool) (st : CheckerState)
    (r : SamRec) (hwf : wellFormed r) :
    ∃ st', stepRec hs st r = some st' ∧
      (recoveredB r = true ↔
        (r.flags &&& 4 = 0 ∧ ∃ a, r.asTag = some a ∧ scEx r ≤ a)) ∧
      lookup0 st'.resBySc (scEx r) =
        (if recoveredB r then (lookup0 st.resBySc (scEx r)).1 + 1
         else (lookup0 st.resBySc (scEx r)).1,
         if recoveredB r then (lookup0 st.resBySc (scEx r)).2
         else (lookup0 st.resBySc (scEx r)).2 + 1) ∧
      lookup0 st'.resByScLen (scEx r, r.seq.length) =
        (if recoveredB r then (lookup0 st.resByScLen (scEx r, r.seq.length)).1 + 1
         else (lookup0 st.resByScLen (scEx r, r.seq.length)).1,
         if recoveredB r then (lookup0 st.resByScLen (scEx r, r.seq.length)).2
         else (lookup0 st.resByScLen (scEx r, r.seq.length)).2 + 1) := by
  refine ⟨_, stepRec_eq hs st r hwf, ?_, ?_, ?_⟩
  · unfold recoveredB
    constructor
    · intro h
      cases hA : r.asTag with
      | none => rw [hA] at h; simp at h
      | some a =>
        rw [hA] at h
        simp only [Bool.and_eq_true, decide_eq_true_eq] at h
        exact ⟨h.1, a, rfl, h.2⟩
    · rintro ⟨h4, a, hA, hle⟩
      rw [hA]
      simp [h4, hle]
  · rw [lookup0_bumpTally_self]
    cases recoveredB r <;> simp
  · rw [lookup0_bumpTally_self]
    cases recoveredB r <;> simp

theorem record_tallied_recovered_iff_witness :
    wellFormed wRec1 ∧
    ∃ st', stepRec true emptyState wRec1 = some st' ∧
      (recoveredB wRec1 = true ↔
        (wRec1.flags &&& 4 = 0 ∧ ∃ a, wRec1.asTag = some a ∧ scEx wRec1 ≤ a)) ∧
      lookup0 st'.resBySc (scEx wRec1) =
        (if recoveredB wRec1 then (lookup0 emptyState.resBySc (scEx wRec1)).1 + 1
         else (lookup0 emptyState.resBySc (scEx wRec1)).1,
         if recoveredB wRec1 then (lookup0 emptyState.resBySc (scEx wRec1)).2
         else (lookup0 emptyState.resBySc (scEx wRec1)).2 + 1) ∧
      lookup0 st'.resByScLen (scEx wRec1, wRec1.seq.length) =
        (if recoveredB wRec1 then
           (lookup0 emptyState.resByScLen (scEx wRec1, wRec1.seq.length)).1 + 1
         else (lookup0 emptyState.resByScLen (scEx wRec1, wRec1.seq.length)).1,
         if recoveredB wRec1 then
           (lookup0 emptyState.resByScLen (scEx wRec1, wRec1.seq.length)).2
         else (lookup0 emptyState.resByScLen (scEx wRec1, wRec1.seq.length)).2 + 1) :=
  ⟨by decide, record_tallied_recovered_iff true emptyState wRec1 (by decide)⟩

/-- Generalized stream invariant for C8. -/
lemma runRecs_tallyTotal (hs : Bool) :
    ∀ (recs : List SamRec) (st st' : CheckerState),
      runRecs hs st recs = some st' →
      tallyTotal st'.resBySc = tallyTotal st.resBySc + recs.length := by
  intro recs
  induction recs with
  | nil =>
    intro st st' h
    simp only [runRecs, Option.some.injEq] at h
    subst h; simp
  | cons r rs ih =>
    intro st st' h
    simp only [runRecs] at h
    cases hstep : stepRec hs st r with
    | none => rw [hstep] at h; exact absurd h (by simp)
    | some st1 =>
      rw [hstep] at h
      unfold stepRec at hstep
      cases hsucc : succOf r with
      | none => rw [hsucc] at hstep; exact absurd hstep (by simp)
      | some b =>
        rw [hsucc] at hstep
        simp only [Option.some.injEq] at hstep
        have h1 : st1.resBySc = bumpTally st.resBySc (scEx r) b := by
          rw [← hstep]
        have := ih st1 st' h
        rw [this, h1, tallyTotal_bumpTally]
        simp [List.length_cons]
        omega

/-- C8: after the collector drains a stream of N well-formed non-header
records, the correct and incorrect counts in the per-expected-score tally
sum to N. -/
theorem drained_tally_total (hs : Bool) (recs : List SamRec)
    (st' : CheckerState) (h : runRecs hs emptyState recs = some st') :
    tallyTotal st'.resBySc = recs.length := by
  have := runRecs_tallyTotal hs recs emptyState st' h
  simpa [emptyState, tallyTotal] using this

theorem drained_tally_total_witness :
    tallyTotal
      (CheckerState.mk [(-3, 1, 0), (-2, 0, 1)]
        [((-3, 1), 1, 0), ((-2, 2), 0, 1)]
        [(-3, some (-3), wRec1), (-2, none, wRec2)]).resBySc = [wRec1, wRec2].length :=
  drained_tally_total true [wRec1, wRec2] _ (by decide)

/-- C1 counterexample: a recovered record — not a qualifying failure — still
causes the caller-supplied sink callback to be invoked (sens.py:563-564 call
the sink for every consumed record; the filtering lives inside `samSink`). -/
theorem sink_called_on_recovered_record :
    (runRecs true emptyState [⟨0, 0, ['A'], some 0⟩]).map CheckerState.sinkCalls =
      some [(0, some 0, ⟨0, 0, ['A'], some 0⟩)] ∧
    recoveredB ⟨0, 0, ['A'], some 0⟩ = true ∧
    qualFail 0 (some 0) = false := by decide

/-- C1 as amended: the sink callback is invoked with
`(expectedScore, reportedScoreOrNone, rawRecord)` for EVERY consumed record
when a sink was supplied; the `samSink` implementation passed as the sink
performs its write only for qualifying failures (record not recovered and
expected score at or above -6). -/
theorem sink_every_record_write_iff_qualifying (st : CheckerState)
    (r : SamRec) (hwf : wellFormed r) :
    ∃ st', stepRec true st r = some st' ∧
      st'.sinkCalls = st.sinkCalls ++ [(scEx r, asParsed r, r)] ∧
      (samSinkWrite (scEx r) (asParsed r) r ≠ none ↔
        (recoveredB r = false ∧ -6 ≤ scEx r)) := by
  refine ⟨_, stepRec_eq true st r hwf, by simp, ?_⟩
  unfold samSinkWrite recoveredB asParsed
  by_cases h4 : r.flags &&& 4 = 0
  · have := hwf h4
    cases hA : r.asTag with
    | none => rw [hA] at this; simp at this
    | some a =>
      simp only [h4, if_pos, hA, decide_eq_true_eq]
      by_cases hlt : a < scEx r
      · have hns : ¬ scEx r ≤ a := by omega
        by_cases hthr : -6 ≤ scEx r <;> simp [hlt, hns, hthr, h4]
      · have hs' : scEx r ≤ a := by omega
        simp [hlt, hs', h4]
  · simp only [h4, if_neg, decide_eq_true_eq]
    by_cases hthr : -6 ≤ scEx r <;> simp [hthr, h4]

theorem sink_every_record_write_iff_qualifying_witness :
    wellFormed wRec2 ∧
    ∃ st', stepRec true emptyState wRec2 = some st' ∧
      st'.sinkCalls = emptyState.sinkCalls ++ [(scEx wRec2, asParsed wRec2, wRec2)] ∧
      (samSinkWrite (scEx wRec2) (asParsed wRec2) wRec2 ≠ none ↔
        (recoveredB wRec2 = false ∧ -6 ≤ scEx wRec2)) :=
  ⟨by decide, sink_every_record_write_iff_qualifying emptyState wRec2 (by decide)⟩

/-! ### Lemmas about the cumulative table (C2) -/

lemma le_foldl_max : ∀ (l : List Int) (a : Int), a ≤ l.foldl max a := by
  intro l
  induction l with
  | nil => intro a; simp
  | cons x xs ih =>
    intro a
    calc a ≤ max a x := le_max_left a x
    _ ≤ xs.foldl max (max a x) := ih (max a x)
    _ = (x :: xs).foldl max a := rfl

lemma foldl_min_le : ∀ (l : List Int) (a : Int), l.foldl min a ≤ a := by
  intro l
  induction l with
  | nil => intro a; simp
  | cons x xs ih =>
    intro a
    calc (x :: xs).foldl min a = xs.foldl min (min a x) := rfl
    _ ≤ min a x := ih (min a x)
    _ ≤ a := min_le_left a x

lemma listMinI_le_listMaxI (l : List Int) (h : l ≠ []) :
    listMinI l ≤ listMaxI l := by
  cases l with
  | nil => exact absurd rfl h
  | cons x xs =>
    calc listMinI (x :: xs) = xs.foldl min x := rfl
    _ ≤ x := foldl_min_le xs x
    _ ≤ xs.foldl max x := le_foldl_max xs x
    _ = listMaxI (x :: xs) := rfl

lemma cumGo_chain (m : List (Int × Nat × Nat)) :
    ∀ (l : List Int) (cc ic : Nat),
      List.Chain' (fun a b : Int × Nat × Nat => a.2.1 ≤ b.2.1 ∧ a.2.2 ≤ b.2.2)
        (cumGo m l cc ic) := by
  intro l
  induction l with
  | nil => intro cc ic; simp [cumGo]
  | cons sc rest ih =>
    intro cc ic
    cases rest with
    | nil => simp [cumGo]
    | cons sc' rest' =>
      have h2 := ih (cc + (lookup0 m sc).1) (ic + (lookup0 m sc).2)
      simp only [cumGo] at h2 ⊢
      rw [List.chain'_cons]
      exact ⟨⟨Nat.le_add_right _ _, Nat.le_add_right _ _⟩, h2⟩

lemma descRange_cons (hi lo : Int) (h : lo ≤ hi) :
    ∃ rest, descRange hi lo = hi :: rest := by
  unfold descRange
  have hpos : 0 < (hi + 1 - lo).toNat := by omega
  obtain ⟨k, hk⟩ := Nat.exists_eq_succ_of_ne_zero (Nat.pos_iff_ne_zero.mp hpos)
  rw [hk, List.range_succ_eq_map, List.map_cons]
  exact ⟨List.map (fun t : Nat => hi - (t : Int)) (List.map Nat.succ (List.range k)),
    by norm_num⟩

/-- C2 as amended: each cumulative row reports the counts accumulated from
strictly better scores, so the row at the best (highest) observed score has
cumulative counts (0, 0); as the table proceeds to progressively worse
(lower) scores, the cumulative correct and incorrect counts are
non-decreasing. -/
theorem cum_table_head_zero_and_monotone (m : List (Int × Nat × Nat))
    (hne : m ≠ []) :
    (cumTable m).head? = some (listMaxI (tallyKeys m), 0, 0) ∧
    List.Chain' (fun a b : Int × Nat × Nat => a.2.1 ≤ b.2.1 ∧ a.2.2 ≤ b.2.2)
      (cumTable m) := by
  have hkeys : tallyKeys m ≠ [] := by
    cases m with
    | nil => exact absurd rfl hne
    | cons e t => simp [tallyKeys]
  obtain ⟨rest, hrest⟩ :=
    descRange_cons (listMaxI (tallyKeys m)) (listMinI (tallyKeys m))
      (listMinI_le_listMaxI _ hkeys)
  constructor
  · unfold cumTable
    rw [hrest]
    simp [cumGo]
  · exact cumGo_chain m _ 0 0

theorem cum_table_head_zero_and_monotone_witness :
    (([((-3 : Int), 1, 2), (-1, 0, 1)] : List (Int × Nat × Nat)) ≠ []) ∧
    ((cumTable [(-3, 1, 2), (-1, 0, 1)]).head? =
        some (listMaxI (tallyKeys [(-3, 1, 2), (-1, 0, 1)]), 0, 0) ∧
      List.Chain' (fun a b : Int × Nat × Nat => a.2.1 ≤ b.2.1 ∧ a.2.2 ≤ b.2.2)
        (cumTable [(-3, 1, 2), (-1, 0, 1)])) :=
  ⟨by decide, cum_table_head_zero_and_monotone [(-3, 1, 2), (-1, 0, 1)] (by decide)⟩

/-- C2 counterexample: for the (reachable) tally with a single key -1 holding
one correct result, the cumulative table's row at the best observed score is
`(-1, 0, 0)` while the flat table's row at that score is `(-1, 1, 0)`: the two
rows differ, because each cumulative row reports the counts accumulated
BEFORE (strictly better than) its score. -/
theorem cum_head_ne_flat_head :
    (runRecs false emptyState [⟨1, 0, ['A'], some (-1)⟩]).map CheckerState.resBySc =
      some [(-1, 1, 0)] ∧
    cumTable [((-1 : Int), 1, 0)] = [(-1, 0, 0)] ∧
    flatTable [((-1 : Int), 1, 0)] = [(-1, 1, 0)] ∧
    ((-1, 0, 0) : Int × Nat × Nat) ≠ (-1, 1, 0) := by decide

/-! ### Lemmas about the Combination Index (C4, C5, C6) -/

lemma insertLe_perm {α : Type} (le : α → α → Bool) (x : α) :
    ∀ l : List α, (insertLe le x l).Perm (x :: l) := by
  intro l
  induction l with
  | nil => simp [insertLe]
  | cons y ys ih =>
    by_cases h : le x y = true
    · simp [insertLe, h]
    · simp only [insertLe, h, if_false]
      exact (ih.cons y).trans (List.Perm.swap x y ys)

lemma isort_perm {α : Type} (le : α → α → Bool) :
    ∀ l : List α, (isort le l).Perm l := by
  intro l
  induction l with
  | nil => simp [isort]
  | cons x xs ih =>
    exact (insertLe_perm le x (isort le xs)).trans (ih.cons x)

lemma mem_loopK (minId : ℚ) (L : Nat) (i j : Nat) (id2 : ℚ) :
    ∀ (fuel k : Nat) (c : Nat × Nat × Nat), c ∈ loopK minId L i j id2 k fuel →
      c.1 = i ∧ c.2.1 = j ∧ minId ≤ id2 - (c.2.2 : ℚ) / (L : ℚ) := by
  intro fuel
  induction fuel with
  | zero => intro k c h; simp [loopK] at h
  | succ fuel ih =>
    intro k c h
    simp only [loopK] at h
    by_cases hg : id2 - (k : ℚ) / (L : ℚ) < minId
    · rw [if_pos hg] at h; simp at h
    · rw [if_neg hg] at h
      rcases List.mem_cons.mp h with h1 | h2
      · subst h1
        exact ⟨rfl, rfl, not_lt.mp hg⟩
      · exact ih (k + 1) c h2

lemma mem_loopJ (minId : ℚ) (L : Nat) (me i : Nat) (id1 : ℚ) :
    ∀ (fuel j : Nat) (c : Nat × Nat × Nat), c ∈ loopJ minId L me i id1 j fuel →
      c.1 = i ∧
        minId ≤ id1 - (c.2.1 : ℚ) / (L : ℚ) - (c.2.2 : ℚ) / (L : ℚ) := by
  intro fuel
  induction fuel with
  | zero => intro j c h; simp [loopJ] at h
  | succ fuel ih =>
    intro j c h
    simp only [loopJ] at h
    by_cases hg : id1 - (j : ℚ) / (L : ℚ) < minId
    · rw [if_pos hg] at h; simp at h
    · rw [if_neg hg] at h
      rcases List.mem_append.mp h with h1 | h2
      · obtain ⟨hi, hj, hb⟩ := mem_loopK minId L i j _ _ 0 c h1
        rw [← hj] at hb
        exact ⟨hi, hb⟩
      · exact ih (j + 1) c h2

lemma mem_loopI (minId : ℚ) (L : Nat) (me : Nat) (idq : ℚ) :
    ∀ (fuel i : Nat) (c : Nat × Nat × Nat), c ∈ loopI minId L me idq i fuel →
      minId ≤ idq - (c.1 : ℚ) / (L : ℚ) - (c.2.1 : ℚ) / (L : ℚ) -
        (c.2.2 : ℚ) / (L : ℚ) := by
  intro fuel
  induction fuel with
  | zero => intro i c h; simp [loopI] at h
  | succ fuel ih =>
    intro i c h
    simp only [loopI] at h
    by_cases hg : idq - (i : ℚ) / (L : ℚ) < minId
    · rw [if_pos hg] at h; simp at h
    · rw [if_neg hg] at h
      rcases List.mem_append.mp h with h1 | h2
      · obtain ⟨hi, hb⟩ := mem_loopJ minId L me i _ _ 0 c h1
        rw [← hi] at hb
        exact hb
      · exact ih (i + 1) c h2

lemma mem_setupCombos_identity (minId : ℚ) (L : Nat) (c : Nat × Nat × Nat)
    (hc : c ∈ setupCombos minId L) :
    minId ≤ 1 - ((c.1 + c.2.1 + c.2.2 : Nat) : ℚ) / (L : ℚ) := by
  have h := mem_loopI minId L (maxEditsFor minId L) 1 (maxEditsFor minId L + 1) 0 c hc
  have heq : ((c.1 + c.2.1 + c.2.2 : Nat) : ℚ) / (L : ℚ) =
      (c.1 : ℚ) / (L : ℚ) + (c.2.1 : ℚ) / (L : ℚ) + (c.2.2 : ℚ) / (L : ℚ) := by
    push_cast
    rw [add_div, add_div]
  rw [heq]
  linarith

/-- C5: every edit combo enumerated into the Combination Index satisfies the
cumulative identity floor `1 - (i+j+k)/maxReadLength ≥ minIdentity`, and in
particular its edit count is at most `ceil(maxReadLength*(1-minIdentity))`. -/
theorem combo_identity_floor (minId : ℚ) (L : Nat) (h0 : 0 ≤ minId)
    (h1 : minId ≤ 1) (hL : 0 < L) :
    ∀ c ∈ setupCombos minId L,
      minId ≤ 1 - ((c.1 + c.2.1 + c.2.2 : Nat) : ℚ) / (L : ℚ) ∧
        c.1 + c.2.1 + c.2.2 ≤ maxEditsFor minId L := by
  intro c hc
  have hfloor := mem_setupCombos_identity minId L c hc
  refine ⟨hfloor, ?_⟩
  have hLq : (0 : ℚ) < (L : ℚ) := by exact_mod_cast hL
  have hdiv : ((c.1 + c.2.1 + c.2.2 : Nat) : ℚ) / (L : ℚ) ≤ 1 - minId := by
    linarith
  have hmul : ((c.1 + c.2.1 + c.2.2 : Nat) : ℚ) ≤ (L : ℚ) * (1 - minId) := by
    rw [div_le_iff₀ hLq] at hdiv
    linarith [hdiv]
  have hceil : ((c.1 + c.2.1 + c.2.2 : Nat) : Int) ≤
      Int.ceil ((L : ℚ) * (1 - minId)) := by
    have := Int.le_ceil ((L : ℚ) * (1 - minId))
    have h2 : ((c.1 + c.2.1 + c.2.2 : Nat) : ℚ) ≤
        ((Int.ceil ((L : ℚ) * (1 - minId)) : Int) : ℚ) := le_trans hmul this
    exact_mod_cast h2
  unfold maxEditsFor
  omega

theorem combo_identity_floor_witness :
    ((0 : ℚ) ≤ 9 / 10 ∧ (9 / 10 : ℚ) ≤ 1 ∧ 0 < 10) ∧
    ∀ c ∈ setupCombos (9 / 10) 10,
      (9 / 10 : ℚ) ≤ 1 - ((c.1 + c.2.1 + c.2.2 : Nat) : ℚ) / ((10 : Nat) : ℚ) ∧
        c.1 + c.2.1 + c.2.2 ≤ maxEditsFor (9 / 10) 10 :=
  ⟨⟨by norm_num, by norm_num, by norm_num⟩,
    combo_identity_floor (9 / 10) 10 (by norm_num) (by norm_num) (by norm_num)⟩

lemma zero_mem_setupCombos (minId : ℚ) (L : Nat) (h1 : minId ≤ 1) :
    ((0, 0, 0) : Nat × Nat × Nat) ∈ setupCombos minId L := by
  have hg : ¬((1 : ℚ) - ((0 : Nat) : ℚ) / (L : ℚ) < minId) := by
    simpa using not_lt.mpr h1
  have hg2 : ¬((1 : ℚ) - ((0 : Nat) : ℚ) / (L : ℚ) - ((0 : Nat) : ℚ) / (L : ℚ)
      < minId) := by
    simpa using not_lt.mpr h1
  unfold setupCombos
  simp only [loopI]
  rw [if_neg hg]
  apply List.mem_append_left
  simp only [loopJ]
  rw [if_neg hg2]
  apply List.mem_append_left
  simp only [loopK]
  rw [if_neg (by simpa using not_lt.mpr h1)]
  exact List.mem_cons_self _ _

lemma zero_tup_mem_combosByNedit (s : Scoring) (minId : ℚ) (L : Nat)
    (h1 : minId ≤ 1) :
    ((0 : Nat), (0 : Int), (0 : Nat), (0 : Nat), (0 : Nat)) ∈
      combosByNedit s minId L := by
  have hmem := zero_mem_setupCombos minId L h1
  have hmap : ((0 : Nat), (0 : Int), (0 : Nat), (0 : Nat), (0 : Nat)) ∈
      (setupCombos minId L).map fun c =>
        ((c.1 + c.2.1 + c.2.2 : Nat), comboScore s c, c.1, c.2.1, c.2.2) := by
    refine List.mem_map.mpr ⟨(0, 0, 0), hmem, ?_⟩
    simp [comboScore]
  exact ((isort_perm tupLeN _).mem_iff).mpr hmap

/-- C6: for every scoring model, `maxReadLength > 0` and `minIdentity ≤ 1`,
building the Combination Index succeeds and contains the zero-edit combo,
with edit count 0 and score 0, in both ordered sequences. -/
theorem combo_index_zero_combo (s : Scoring) (minId : ℚ) (L : Nat)
    (hL : 0 < L) (h1 : minId ≤ 1) :
    ((0, 0, 0) : Nat × Nat × Nat) ∈ setupCombos minId L ∧
    comboScore s (0, 0, 0) = 0 ∧
    ((0 : Nat), (0 : Int), (0 : Nat), (0 : Nat), (0 : Nat)) ∈
      combosByNedit s minId L ∧
    ((0 : Int), (0 : Nat), (0 : Nat), (0 : Nat), (0 : Nat)) ∈
      combosByScore s minId L := by
  have hmem := zero_mem_setupCombos minId L h1
  refine ⟨hmem, by simp [comboScore], zero_tup_mem_combosByNedit s minId L h1, ?_⟩
  have hmap : ((0 : Int), (0 : Nat), (0 : Nat), (0 : Nat), (0 : Nat)) ∈
      (setupCombos minId L).map fun c =>
        (comboScore s c, (c.1 + c.2.1 + c.2.2 : Nat), c.1, c.2.1, c.2.2) := by
    refine List.mem_map.mpr ⟨(0, 0, 0), hmem, ?_⟩
    simp [comboScore]
  exact ((isort_perm tupLeS _).mem_iff).mpr hmap

theorem combo_index_zero_combo_witness :
    ((0 : Nat) < 10 ∧ (1 / 2 : ℚ) ≤ 1) ∧
    (((0, 0, 0) : Nat × Nat × Nat) ∈ setupCombos (1 / 2) 10 ∧
      comboScore ⟨1, (2, 6), 1, (5, 3), (5, 3)⟩ (0, 0, 0) = 0 ∧
      ((0 : Nat), (0 : Int), (0 : Nat), (0 : Nat), (0 : Nat)) ∈
        combosByNedit ⟨1, (2, 6), 1, (5, 3), (5, 3)⟩ (1 / 2) 10 ∧
      ((0 : Int), (0 : Nat), (0 : Nat), (0 : Nat), (0 : Nat)) ∈
        combosByScore ⟨1, (2, 6), 1, (5, 3), (5, 3)⟩ (1 / 2) 10) :=
  ⟨⟨by norm_num, by norm_num⟩,
    combo_index_zero_combo ⟨1, (2, 6), 1, (5, 3), (5, 3)⟩ (1 / 2) 10
      (by norm_num) (by norm_num)⟩

lemma neditMaxElt_pos (s : Scoring) (minId : ℚ) (L rdLen : Nat)
    (h1 : minId ≤ 1) : 0 < neditMaxElt s minId L rdLen := by
  unfold neditMaxElt
  refine List.countP_pos_iff.mpr ⟨_, zero_tup_mem_combosByNedit s minId L h1, ?_⟩
  simp

/-- C4: under the "nedit" sampling policy, `mutate` returns the input read
sequence itself, character-for-character unmutated, paired with the score of
the combo sampled from the admissible prefix of `combos_by_nedit`. -/
theorem mutate_nedit_unmutated (s : Scoring) (minId : ℚ) (L : Nat)
    (rd : List Char) (g : RNG) (h0 : 0 ≤ minId) (h1 : minId ≤ 1) :
    (mutateNedit s minId L rd g).1 = rd ∧
    ∃ idx, idx < neditMaxElt s minId L rd.length ∧
      mutateNedit s minId L rd g =
        (rd, ((combosByNedit s minId L).getD idx (0, 0, 0, 0, 0)).2.1) := by
  refine ⟨rfl, (randint 0 (neditMaxElt s minId L rd.length - 1) g).1, ?_, rfl⟩
  have hpos := neditMaxElt_pos s minId L rd.length h1
  have hm : neditMaxElt s minId L rd.length - 1 + 1 - 0 =
      neditMaxElt s minId L rd.length := by omega
  calc (randint 0 (neditMaxElt s minId L rd.length - 1) g).1
      = g.f g.i % (neditMaxElt s minId L rd.length - 1 + 1 - 0) := by
        unfold randint RNG.next; simp
    _ = g.f g.i % neditMaxElt s minId L rd.length := by rw [hm]
    _ < neditMaxElt s minId L rd.length := Nat.mod_lt _ hpos

theorem mutate_nedit_unmutated_witness :
    ((0 : ℚ) ≤ 1 / 2 ∧ (1 / 2 : ℚ) ≤ 1) ∧
    ((mutateNedit ⟨1, (2, 6), 1, (5, 3), (5, 3)⟩ (1 / 2) 4 ['A'] ⟨fun _ => 0, 0⟩).1
        = ['A'] ∧
      ∃ idx, idx < neditMaxElt ⟨1, (2, 6), 1, (5, 3), (5, 3)⟩ (1 / 2) 4
          (['A'] : List Char).length ∧
        mutateNedit ⟨1, (2, 6), 1, (5, 3), (5, 3)⟩ (1 / 2) 4 ['A'] ⟨fun _ => 0, 0⟩ =
          (['A'],
            ((combosByNedit ⟨1, (2, 6), 1, (5, 3), (5, 3)⟩ (1 / 2) 4).getD idx
              (0, 0, 0, 0, 0)).2.1)) :=
  ⟨⟨by norm_num, by norm_num⟩,
    mutate_nedit_unmutated ⟨1, (2, 6), 1, (5, 3), (5, 3)⟩ (1 / 2) 4 ['A']
      ⟨fun _ => 0, 0⟩ (by norm_num) (by norm_num)⟩

/-! ### Lemmas about the Edit Applier (C7, C9, C10) -/

lemma addEditsGo_all_fail (ga : List Char → List Char → Int)
    (orig : List Char) (sc : Int) (nmm nrdg nrfg fuel : Nat)
    (hga : ∀ s, ga s orig ≠ sc) :
    ∀ (rem : Nat) (g : RNG),
      addEditsGo ga orig sc nmm nrdg nrfg fuel true rem g = none ∨
      addEditsGo ga orig sc nmm nrdg nrfg fuel true rem g =
        some (orig, false) := by
  intro rem
  induction rem with
  | zero => intro g; right; rfl
  | succ rem ih =>
    intro g
    simp only [addEditsGo]
    cases attemptOnce orig nmm nrdg nrfg fuel g with
    | none => left; rfl
    | some p =>
      obtain ⟨sl, g'⟩ := p
      simp only [if_true]
      rw [if_neg (hga (mstrStr sl))]
      exact ih g'

/-- C7: with verification enabled, when every candidate mutation fails the
score check, all `maxAttempts` attempts are consumed and `__addEdits`
returns the original unmutated sequence paired with success = false,
leaving the resampling to the caller (`none` stands for a run whose
rejection-sampling fuel ran out inside an attempt). -/
theorem exhausted_attempts_return_original (ga : List Char → List Char → Int)
    (orig : List Char) (sc : Int) (nmm nrdg nrfg maxAttempts : Nat) (g : RNG)
    (fuel : Nat) (hga : ∀ s, ga s orig ≠ sc) :
    addEdits ga orig sc nmm nrdg nrfg maxAttempts true g fuel = none ∨
    addEdits ga orig sc nmm nrdg nrfg maxAttempts true g fuel =
      some (orig, false) :=
  addEditsGo_all_fail ga orig sc nmm nrdg nrfg fuel hga maxAttempts g

theorem exhausted_attempts_return_original_witness :
    (∀ s : List Char, (fun _ _ => (1 : Int)) s ['A'] ≠ (0 : Int)) ∧
    (addEdits (fun _ _ => (1 : Int)) ['A'] 0 0 0 0 10 true ⟨fun _ => 0, 0⟩ 0 =
        none ∨
      addEdits (fun _ _ => (1 : Int)) ['A'] 0 0 0 0 10 true ⟨fun _ => 0, 0⟩ 0 =
        some (['A'], false)) :=
  ⟨fun _ => one_ne_zero,
    exhausted_attempts_return_original (fun _ _ => (1 : Int)) ['A'] 0 0 0 0 10
      ⟨fun _ => 0, 0⟩ 0 (fun _ => one_ne_zero)⟩

lemma galign_nonneg_aux (cost : Char → Char → Int) (dg ig : Int)
    (hc : ∀ a b, 0 ≤ cost a b) (hdg : 0 ≤ dg) (hig : 0 ≤ ig) :
    ∀ (n : Nat) (x y : List Char), x.length + y.length ≤ n →
      0 ≤ galign cost dg ig x y := by
  intro n
  induction n with
  | zero =>
    intro x y h
    have hx : x = [] := List.eq_nil_of_length_eq_zero (by omega)
    have hy : y = [] := List.eq_nil_of_length_eq_zero (by omega)
    subst hx; subst hy
    simp [galign]
  | succ n ih =>
    intro x y h
    match x, y with
    | [], [] => simp [galign]
    | a :: x, [] =>
      simp only [galign]
      exact add_nonneg hdg (ih x [] (by simp at h ⊢; omega))
    | [], b :: y =>
      simp only [galign]
      exact add_nonneg hig (ih [] y (by simp at h ⊢; omega))
    | a :: x, b :: y =>
      simp only [galign]
      refine le_min (add_nonneg (hc a b) (ih x y (by simp at h ⊢; omega)))
        (le_min (add_nonneg hdg (ih x (b :: y) (by simp at h ⊢; omega)))
          (add_nonneg hig (ih (a :: x) y (by simp at h ⊢; omega))))

lemma galign_self_nonpos (cost : Char → Char → Int) (dg ig : Int)
    (hc0 : ∀ a, cost a a = 0) :
    ∀ s : List Char, galign cost dg ig s s ≤ 0 := by
  intro s
  induction s with
  | nil => simp [galign]
  | cons a x ih =>
    have h1 : galign cost dg ig (a :: x) (a :: x) ≤
        cost a a + galign cost dg ig x x := by
      simp only [galign]
      exact min_le_left _ _
    rw [hc0 a, zero_add] at h1
    exact le_trans h1 ih

lemma galign_self_zero (cost : Char → Char → Int) (dg ig : Int)
    (hc : ∀ a b, 0 ≤ cost a b) (hc0 : ∀ a, cost a a = 0) (hdg : 0 ≤ dg)
    (hig : 0 ≤ ig) (s : List Char) : galign cost dg ig s s = 0 :=
  le_antisymm (galign_self_nonpos cost dg ig hc0 s)
    (galign_nonneg_aux cost dg ig hc hdg hig (s.length + s.length) s s le_rfl)

lemma mstrStr_mstrOf : ∀ s : List Char, mstrStr (mstrOf s) = s := by
  intro s
  induction s with
  | nil => rfl
  | cons c t ih =>
    simp only [mstrOf, List.map_cons, mstrStr, List.flatten_cons,
      List.singleton_append] at ih ⊢
    rw [ih]

lemma fillSet_zero (lo hi : Nat) :
    ∀ (fuel : Nat) (g : RNG), fillSet lo hi 0 fuel [] g = some ([], g) := by
  intro fuel g
  cases fuel <;> simp [fillSet]

lemma attemptOnce_zero (orig : List Char) (fuel : Nat) (g : RNG) :
    attemptOnce orig 0 0 0 fuel g = some (mstrOf orig, g) := by
  simp [attemptOnce, fillSet_zero, applyMMs, sortDesc, isort, gapFold]

/-- C9: applying the zero-edit combo via `__addEdits`, with or without
verification, returns the sequence unchanged with success = true. The
Alignment Oracle is the spec-modelled exact global alignment score, whose
self-alignment score is 0 when the penalties are non-negative. -/
theorem zero_combo_identity (mmp dg ig : Int) (h1 : 0 ≤ mmp) (h2 : 0 ≤ dg)
    (h3 : 0 ≤ ig) (orig : List Char) (hne : orig ≠ []) (cs : Bool)
    (maxAttempts : Nat) (hma : 1 ≤ maxAttempts) (g : RNG) (fuel : Nat) :
    addEdits (galign (gaCost mmp) dg ig) orig 0 0 0 0 maxAttempts cs g fuel =
      some (orig, true) := by
  obtain ⟨rem, hrem⟩ : ∃ rem, maxAttempts = rem + 1 :=
    ⟨maxAttempts - 1, by omega⟩
  subst hrem
  unfold addEdits
  simp only [addEditsGo, attemptOnce_zero]
  rw [mstrStr_mstrOf]
  have hz : galign (gaCost mmp) dg ig orig orig = 0 :=
    galign_self_zero (gaCost mmp) dg ig
      (fun a b => by unfold gaCost; split <;> simp [h1])
      (fun a => by simp [gaCost]) h2 h3 orig
  cases cs <;> simp [hz]

theorem zero_combo_identity_witness :
    ((0 : Int) ≤ 6 ∧ (0 : Int) ≤ 8 ∧ (0 : Int) ≤ 8 ∧ (['A', 'C'] : List Char) ≠ [] ∧
      1 ≤ 10) ∧
    addEdits (galign (gaCost 6) 8 8) ['A', 'C'] 0 0 0 0 10 true
      ⟨fun _ => 0, 0⟩ 3 = some (['A', 'C'], true) :=
  ⟨⟨by norm_num, by norm_num, by norm_num, by simp, by norm_num⟩,
    zero_combo_identity 6 8 8 (by norm_num) (by norm_num) (by norm_num)
      ['A', 'C'] (by simp) true 10 (by norm_num) ⟨fun _ => 0, 0⟩ 3⟩

lemma mstrGet_set_self : ∀ (sl : List (List Char)) (p : Nat) (v : List Char),
    p < sl.length → mstrGet (mstrSet sl p v) p = v
  | [], p, v, h => absurd h (by simp)
  | a :: t, 0, v, _ => rfl
  | a :: t, p + 1, v, h => mstrGet_set_self t p v (by simpa using h)

lemma mstrGet_set_ne : ∀ (sl : List (List Char)) (q p : Nat) (v : List Char),
    q ≠ p → mstrGet (mstrSet sl q v) p = mstrGet sl p
  | [], _, _, _, _ => by simp [mstrGet, mstrSet]
  | a :: t, 0, 0, v, h => absurd rfl h
  | a :: t, 0, p + 1, v, _ => rfl
  | a :: t, q + 1, 0, v, _ => rfl
  | a :: t, q + 1, p + 1, v, h =>
    mstrGet_set_ne t q p v fun hh => h (by rw [hh])

lemma mstrGet_mstrOf_len : ∀ (s : List Char) (p : Nat), p < s.length →
    (mstrGet (mstrOf s) p).length = 1
  | c :: t, 0, _ => rfl
  | c :: t, p + 1, h => mstrGet_mstrOf_len t p (by simpa using h)

lemma fillSet_some_spec (lo hi n : Nat) :
    ∀ (fuel : Nat) (acc : List Nat) (g : RNG) (s : List Nat) (g' : RNG),
      fillSet lo hi n fuel acc g = some (s, g') →
      (acc.Nodup → s.Nodup) ∧ (acc.length ≤ n → s.length = n) ∧
        (∀ x ∈ s, x ∈ acc ∨ (lo ≤ x ∧ (lo ≤ hi → x ≤ hi))) := by
  intro fuel
  induction fuel with
  | zero =>
    intro acc g s g' h
    unfold fillSet at h
    by_cases hn : n ≤ acc.length
    · rw [if_pos hn] at h
      simp only [Option.some.injEq, Prod.mk.injEq] at h
      obtain ⟨rfl, rfl⟩ := h
      exact ⟨id, fun hle => by omega, fun x hx => Or.inl hx⟩
    · rw [if_neg hn] at h
      exact absurd h (by simp)
  | succ fuel ih =>
    intro acc g s g' h
    unfold fillSet at h
    by_cases hn : n ≤ acc.length
    · rw [if_pos hn] at h
      simp only [Option.some.injEq, Prod.mk.injEq] at h
      obtain ⟨rfl, rfl⟩ := h
      exact ⟨id, fun hle => by omega, fun x hx => Or.inl hx⟩
    · rw [if_neg hn] at h
      obtain ⟨hnd, hlen, hbd⟩ := ih _ _ s g' h
      have hvP : lo ≤ (randint lo hi g).1 ∧
          (lo ≤ hi → (randint lo hi g).1 ≤ hi) := by
        unfold randint RNG.next
        simp only
        constructor
        · omega
        · intro hlh
          have hm : 0 < hi + 1 - lo := by omega
          have := Nat.mod_lt (g.f g.i) hm
          omega
      refine ⟨?_, ?_, ?_⟩
      · intro hacc
        apply hnd
        by_cases hv : (randint lo hi g).1 ∈ acc
        · rwa [if_pos hv]
        · rw [if_neg hv]
          simp [List.nodup_append, hacc, hv]
      · intro hle
        apply hlen
        by_cases hv : (randint lo hi g).1 ∈ acc
        · rw [if_pos hv]; omega
        · rw [if_neg hv]; simp; omega
      · intro x hx
        rcases hbd x hx with hin | hP
        · by_cases hv : (randint lo hi g).1 ∈ acc
          · rw [if_pos hv] at hin
            exact Or.inl hin
          · rw [if_neg hv] at hin
            rcases List.mem_append.mp hin with hin1 | hin2
            · exact Or.inl hin1
            · simp only [List.mem_singleton] at hin2
              subst hin2
              exact Or.inr hvP
        · exact Or.inr hP

lemma applyMMs_spec :
    ∀ (ms : List Nat) (sl : List (List Char)) (fuel : Nat) (g : RNG)
      (sl' : List (List Char)) (g' : RNG),
      applyMMs ms sl fuel g = some (sl', g') →
      sl'.length = sl.length ∧
        ∀ p, (mstrGet sl' p).length = (mstrGet sl p).length := by
  intro ms
  induction ms with
  | nil =>
    intro sl fuel g sl' g' h
    simp only [applyMMs, Option.some.injEq, Prod.mk.injEq] at h
    obtain ⟨rfl, rfl⟩ := h
    exact ⟨rfl, fun p => rfl⟩
  | cons mm rest ih =>
    intro sl fuel g sl' g' h
    simp only [applyMMs] at h
    by_cases h1 : (mstrGet sl mm).length = 1
    · rw [if_pos h1] at h
      cases hp : pickDiffChar ((mstrGet sl mm).headD 'A') fuel g with
      | none => rw [hp] at h; exact absurd h (by simp)
      | some cg =>
        obtain ⟨c, g1⟩ := cg
        rw [hp] at h
        obtain ⟨hL, hpt⟩ := ih (mstrSet sl mm [c]) fuel g1 sl' g' h
        have hmm : mm < sl.length := by
          by_contra hge
          push_neg at hge
          have hnil : mstrGet sl mm = [] := by
            unfold mstrGet
            exact List.getD_eq_default _ _ (by simpa using hge)
          rw [hnil] at h1
          simp at h1
        refine ⟨by rw [hL]; simp [mstrSet], ?_⟩
        intro p
        rw [hpt p]
        by_cases hpm : mm = p
        · subst hpm
          rw [mstrGet_set_self sl mm [c] hmm, h1]
          rfl
        · rw [mstrGet_set_ne sl mm p [c] hpm]
    · rw [if_neg h1] at h
      exact absurd h (by simp)

lemma gapFold_length :
    ∀ (l rdgs rfgs : List Nat) (sl : List (List Char)) (g : RNG),
      ((gapFold l rdgs rfgs sl g).1).length = sl.length := by
  intro l
  induction l with
  | nil => intro rdgs rfgs sl g; rfl
  | cons gapi rest ih =>
    intro rdgs rfgs sl g
    simp only [gapFold]
    by_cases h2 : gapi ∈ rfgs
    · rw [if_pos h2, ih]
      by_cases h1 : gapi ∈ rdgs <;> simp [h1, mstrSet, mstrDelete]
    · rw [if_neg h2, ih]
      by_cases h1 : gapi ∈ rdgs <;> simp [h1, mstrSet, mstrDelete]

lemma gapFold_get_notmem :
    ∀ (l rdgs rfgs : List Nat) (sl : List (List Char)) (g : RNG) (p : Nat),
      p ∉ l → mstrGet ((gapFold l rdgs rfgs sl g).1) p = mstrGet sl p := by
  intro l
  induction l with
  | nil => intro rdgs rfgs sl g p _; rfl
  | cons gapi rest ih =>
    intro rdgs rfgs sl g p hp
    have hne : gapi ≠ p := fun h => hp (h ▸ List.mem_cons_self _ _)
    have hrest : p ∉ rest := fun h => hp (List.mem_cons_of_mem _ h)
    simp only [gapFold]
    by_cases h2 : gapi ∈ rfgs
    · rw [if_pos h2, ih _ _ _ _ _ hrest, mstrGet_set_ne _ _ _ _ hne]
      by_cases h1 : gapi ∈ rdgs
      · rw [if_pos h1]
        exact mstrGet_set_ne _ _ _ _ hne
      · rw [if_neg h1]
    · rw [if_neg h2, ih _ _ _ _ _ hrest]
      by_cases h1 : gapi ∈ rdgs
      · rw [if_pos h1]
        exact mstrGet_set_ne _ _ _ _ hne
      · rw [if_neg h1]

lemma gapFold_get_len :
    ∀ (l rdgs rfgs : List Nat) (sl : List (List Char)) (g : RNG) (p : Nat),
      p < sl.length → p ∈ l → (p ∈ rdgs ∨ l.count p = 1) →
      (mstrGet ((gapFold l rdgs rfgs sl g).1) p).length =
        (if p ∈ rdgs then 0 else (mstrGet sl p).length) +
          (if p ∈ rfgs then 1 else 0) := by
  intro l
  induction l with
  | nil => intro rdgs rfgs sl g p _ hp _; simp at hp
  | cons gapi rest ih =>
    intro rdgs rfgs sl g p hplen hp hcnt
    simp only [gapFold]
    by_cases hgp : gapi = p
    · have hpg : p = gapi := hgp.symm
      subst hpg
      by_cases hrest : p ∈ rest
      · have hprd : p ∈ rdgs := by
          rcases hcnt with h | h
          · exact h
          · exfalso
            have hc1 : rest.count p + 1 = 1 := by
              have : (p :: rest).count p = rest.count p + 1 := by
                simp [List.count_cons]
              omega
            have := List.count_pos_iff.mpr hrest
            omega
        rw [if_pos hprd]
        by_cases h2 : p ∈ rfgs
        · rw [if_pos h2]
          rw [ih rdgs rfgs _ _ p
            (by simp [mstrSet, mstrDelete, hplen]) hrest (Or.inl hprd)]
          simp [hprd]
        · rw [if_neg h2]
          rw [ih rdgs rfgs _ _ p
            (by simp [mstrSet, mstrDelete, hplen]) hrest (Or.inl hprd)]
          simp [hprd]
      · by_cases h2 : p ∈ rfgs
        · rw [if_pos h2, gapFold_get_notmem _ _ _ _ _ _ hrest]
          by_cases h1 : p ∈ rdgs
          · rw [if_pos h1]
            have hd1 : p < (mstrDelete sl p).length := by
              simpa [mstrSet, mstrDelete] using hplen
            rw [mstrGet_set_self _ _ _ hd1]
            simp only [mstrDelete]
            rw [mstrGet_set_self sl p [] hplen]
            simp [h1, h2]
          · rw [if_neg h1]
            rw [mstrGet_set_self _ _ _ hplen]
            simp [h1, h2]
        · rw [if_neg h2, gapFold_get_notmem _ _ _ _ _ _ hrest]
          by_cases h1 : p ∈ rdgs
          · rw [if_pos h1]
            simp only [mstrDelete]
            rw [mstrGet_set_self sl p [] hplen]
            simp [h1, h2]
          · rw [if_neg h1]
            simp [h1, h2]
    · have hprest : p ∈ rest := by
        rcases List.mem_cons.mp hp with h | h
        · exact absurd h.symm hgp
        · exact h
      have hcnt' : p ∈ rdgs ∨ rest.count p = 1 := by
        rcases hcnt with h | h
        · exact Or.inl h
        · right
          rwa [List.count_cons_of_ne (fun hh => hgp hh.symm)] at h
      by_cases h2 : gapi ∈ rfgs
      · rw [if_pos h2]
        have hl : p < (mstrSet (if gapi ∈ rdgs then mstrDelete sl gapi else sl)
            gapi ((choiceACGT g).1 ::
              mstrGet (if gapi ∈ rdgs then mstrDelete sl gapi else sl)
                gapi)).length := by
          by_cases h1 : gapi ∈ rdgs <;>
            simp [h1, mstrSet, mstrDelete, hplen]
        rw [ih rdgs rfgs _ _ p hl hprest hcnt']
        have hget : mstrGet
            (mstrSet (if gapi ∈ rdgs then mstrDelete sl gapi else sl) gapi
              ((choiceACGT g).1 ::
                mstrGet (if gapi ∈ rdgs then mstrDelete sl gapi else sl) gapi))
            p = mstrGet sl p := by
          rw [mstrGet_set_ne _ _ _ _ hgp]
          by_cases h1 : gapi ∈ rdgs
          · rw [if_pos h1]
            exact mstrGet_set_ne _ _ _ _ hgp
          · rw [if_neg h1]
        rw [hget]
      · rw [if_neg h2]
        have hl2 : p < (if gapi ∈ rdgs then mstrDelete sl gapi
            else sl).length := by
          by_cases h1 : gapi ∈ rdgs <;> simp [h1, mstrSet, mstrDelete, hplen]
        rw [ih rdgs rfgs _ _ p hl2 hprest hcnt']
        have hget : mstrGet (if gapi ∈ rdgs then mstrDelete sl gapi else sl) p =
            mstrGet sl p := by
          by_cases h1 : gapi ∈ rdgs
          · rw [if_pos h1]
            exact mstrGet_set_ne _ _ _ _ hgp
          · rw [if_neg h1]
        rw [hget]

lemma mstrStr_length_sum :
    ∀ sl : List (List Char),
      (mstrStr sl).length =
        ∑ i ∈ Finset.range sl.length, (mstrGet sl i).length := by
  intro sl
  induction sl with
  | nil => simp [mstrStr]
  | cons a t ih =>
    simp only [mstrStr, List.flatten_cons, List.length_append, List.length_cons]
    rw [Finset.sum_range_succ']
    simp only [mstrGet, List.getD_cons_succ, List.getD_cons_zero]
    simp only [mstrStr, mstrGet] at ih
    omega

lemma sum_gapcounts (L : Nat) (rdgs rfgs : List Nat) (hrd : rdgs.Nodup)
    (hrf : rfgs.Nodup) (hrdb : ∀ x ∈ rdgs, x < L) (hrfb : ∀ x ∈ rfgs, x < L) :
    (∑ p ∈ Finset.range L,
        ((if p ∈ rdgs then 0 else 1) + (if p ∈ rfgs then 1 else 0))) =
      L - rdgs.length + rfgs.length := by
  have hfil : ∀ l : List Nat, l.Nodup → (∀ x ∈ l, x < L) →
      ((Finset.range L).filter fun p => p ∈ l).card = l.length := by
    intro l hnd hb
    have hset : ((Finset.range L).filter fun p => p ∈ l) = l.toFinset := by
      ext x
      simp only [Finset.mem_filter, Finset.mem_range, List.mem_toFinset]
      exact ⟨fun h => h.2, fun h => ⟨hb x h, h⟩⟩
    rw [hset, List.toFinset_card_of_nodup hnd]
  have h1 : (∑ p ∈ Finset.range L, (if p ∈ rfgs then 1 else 0)) =
      rfgs.length := by
    rw [Finset.sum_boole]
    simpa using hfil rfgs hrf hrfb
  have h2 : (∑ p ∈ Finset.range L, (if p ∈ rdgs then 1 else 0)) =
      rdgs.length := by
    rw [Finset.sum_boole]
    simpa using hfil rdgs hrd hrdb
  have h3 : (∑ p ∈ Finset.range L,
      ((if p ∈ rdgs then 0 else 1) + (if p ∈ rdgs then 1 else 0))) = L := by
    have hone : ∀ p : Nat,
        ((if p ∈ rdgs then 0 else 1) + (if p ∈ rdgs then 1 else 0)) = 1 := by
      intro p
      by_cases h : p ∈ rdgs <;> simp [h]
    calc (∑ p ∈ Finset.range L,
          ((if p ∈ rdgs then 0 else 1) + (if p ∈ rdgs then 1 else 0)))
        = ∑ _p ∈ Finset.range L, 1 :=
          Finset.sum_congr rfl fun p _ => hone p
      _ = L := by simp
  rw [Finset.sum_add_distrib, h1]
  rw [Finset.sum_add_distrib, h2] at h3
  omega

lemma gapFold_total_length (sl : List (List Char)) (rdgs rfgs : List Nat)
    (hones : ∀ p, p < sl.length → (mstrGet sl p).length = 1)
    (hrd : rdgs.Nodup) (hrf : rfgs.Nodup)
    (hrdb : ∀ x ∈ rdgs, x < sl.length) (hrfb : ∀ x ∈ rfgs, x < sl.length)
    (g : RNG) :
    (mstrStr ((gapFold (sortDesc (rdgs ++ rfgs)) rdgs rfgs sl g).1)).length =
      sl.length - rdgs.length + rfgs.length := by
  have hperm : (sortDesc (rdgs ++ rfgs)).Perm (rdgs ++ rfgs) := isort_perm _ _
  rw [mstrStr_length_sum, gapFold_length]
  have hpt : ∀ p ∈ Finset.range sl.length,
      (mstrGet ((gapFold (sortDesc (rdgs ++ rfgs)) rdgs rfgs sl g).1) p).length
        = (if p ∈ rdgs then 0 else 1) + (if p ∈ rfgs then 1 else 0) := by
    intro p hp
    rw [Finset.mem_range] at hp
    by_cases hmem : p ∈ rdgs ∨ p ∈ rfgs
    · have hpl : p ∈ sortDesc (rdgs ++ rfgs) :=
        hperm.mem_iff.mpr (List.mem_append.mpr hmem)
      have hcnt : p ∈ rdgs ∨ (sortDesc (rdgs ++ rfgs)).count p = 1 := by
        by_cases hpr : p ∈ rdgs
        · exact Or.inl hpr
        · right
          rw [hperm.count_eq, List.count_append]
          have hz : rdgs.count p = 0 := List.count_eq_zero.mpr hpr
          have ho : rfgs.count p = 1 :=
            List.count_eq_one_of_mem hrf (hmem.resolve_left hpr)
          omega
      rw [gapFold_get_len _ _ _ _ _ _ hp hpl hcnt, hones p hp]
    · push_neg at hmem
      have hnin : p ∉ sortDesc (rdgs ++ rfgs) := by
        rw [hperm.mem_iff, List.mem_append]
        push_neg
        exact hmem
      rw [gapFold_get_notmem _ _ _ _ _ _ hnin, hones p hp]
      simp [hmem.1, hmem.2]
  rw [Finset.sum_congr rfl hpt]
  exact sum_gapcounts sl.length rdgs rfgs hrd hrf hrdb hrfb

lemma attemptOnce_length (orig : List Char) (nmm nrdg nrfg fuel : Nat)
    (g : RNG) (sl : List (List Char)) (g' : RNG)
    (hrd : nrdg ≤ orig.length) (hrf : nrfg ≤ orig.length - 1)
    (h : attemptOnce orig nmm nrdg nrfg fuel g = some (sl, g')) :
    (mstrStr sl).length = orig.length - nrdg + nrfg := by
  unfold attemptOnce at h
  split at h
  · simp at h
  rename_i mmset g1 hmm
  split at h
  · simp at h
  rename_i rdgset g2 hrdg
  split at h
  · simp at h
  rename_i rfgset g3 hrfg
  split at h
  · simp at h
  rename_i sl1 g4 happ
  simp only [Option.some.injEq] at h
  obtain ⟨_, hlen2, hbd2⟩ :=
    fillSet_some_spec 0 (orig.length - 1) nrdg fuel [] g1 rdgset g2 hrdg
  obtain ⟨hnd2, _, _⟩ :=
    fillSet_some_spec 0 (orig.length - 1) nrdg fuel [] g1 rdgset g2 hrdg
  obtain ⟨hnd3, hlen3, hbd3⟩ :=
    fillSet_some_spec 1 (orig.length - 1) nrfg fuel [] g2 rfgset g3 hrfg
  obtain ⟨hA1, hA2⟩ := applyMMs_spec mmset (mstrOf orig) fuel g3 sl1 g4 happ
  have hLs : sl1.length = orig.length := by
    rw [hA1]; simp [mstrOf]
  have hones : ∀ p, p < sl1.length → (mstrGet sl1 p).length = 1 := by
    intro p hpl
    rw [hA2 p]
    exact mstrGet_mstrOf_len orig p (by rwa [hLs] at hpl)
  have hrdgN : rdgset.Nodup := hnd2 (by simp)
  have hrfgN : rfgset.Nodup := hnd3 (by simp)
  have hrdgL : rdgset.length = nrdg := hlen2 (by simp)
  have hrfgL : rfgset.length = nrfg := hlen3 (by simp)
  have hrdgB : ∀ x ∈ rdgset, x < sl1.length := by
    intro x hx
    rcases hbd2 x hx with hin | ⟨_, hhi⟩
    · simp at hin
    · have hxle := hhi (Nat.zero_le _)
      have hpos : 0 < orig.length := by
        rcases Nat.eq_zero_or_pos orig.length with h0 | h0
        · exfalso
          have hn0 : nrdg = 0 := by omega
          rw [hn0, List.length_eq_zero] at hrdgL
          rw [hrdgL] at hx
          simp at hx
        · exact h0
      rw [hLs]
      omega
  have hrfgB : ∀ x ∈ rfgset, x < sl1.length := by
    intro x hx
    rcases hbd3 x hx with hin | ⟨_, hhi⟩
    · simp at hin
    · have hge1 : 1 ≤ orig.length - 1 := by
        by_contra hlt
        push_neg at hlt
        have hn0 : nrfg = 0 := by omega
        rw [hn0, List.length_eq_zero] at hrfgL
        rw [hrfgL] at hx
        simp at hx
      have hxle := hhi hge1
      rw [hLs]
      omega
  have hsl : sl = (gapFold (sortDesc (rdgset ++ rfgset)) rdgset rfgset sl1 g4).1 := by
    rw [h]
  rw [hsl,
    gapFold_total_length sl1 rdgset rfgset hones hrdgN hrfgN hrdgB hrfgB g4,
    hLs, hrdgL, hrfgL]

lemma addEditsGo_length (ga : List Char → List Char → Int) (orig : List Char)
    (sc : Int) (nmm nrdg nrfg fuel : Nat) (cs : Bool)
    (hrd : nrdg ≤ orig.length) (hrf : nrfg ≤ orig.length - 1) :
    ∀ (rem : Nat) (g : RNG) (s : List Char),
      addEditsGo ga orig sc nmm nrdg nrfg fuel cs rem g = some (s, true) →
      s.length = orig.length - nrdg + nrfg := by
  intro rem
  induction rem with
  | zero =>
    intro g s h
    simp only [addEditsGo, Option.some.injEq, Prod.mk.injEq] at h
    exact absurd h.2 (by simp)
  | succ rem ih =>
    intro g s h
    simp only [addEditsGo] at h
    cases hatt : attemptOnce orig nmm nrdg nrfg fuel g with
    | none => rw [hatt] at h; exact absurd h (by simp)
    | some p =>
      obtain ⟨sl, g'⟩ := p
      rw [hatt] at h
      have hlen :=
        attemptOnce_length orig nmm nrdg nrfg fuel g sl g' hrd hrf hatt
      cases cs with
      | false =>
        simp only [Bool.false_eq_true, if_false, Option.some.injEq,
          Prod.mk.injEq] at h
        rw [← h.1]
        exact hlen
      | true =>
        simp only [if_true] at h
        by_cases hsc : ga (mstrStr sl) orig = sc
        · rw [if_pos hsc] at h
          simp only [Option.some.injEq, Prod.mk.injEq] at h
          rw [← h.1]
          exact hlen
        · rw [if_neg hsc] at h
          exact ih g' s h

/-- C10: for every sequence and combo with `readGaps ≤ length` and
`refGaps ≤ length - 1`, whenever `__addEdits` returns with success = true
the mutated sequence's length is exactly
`length - readGaps + refGaps`, regardless of overlaps among the chosen
mismatch, read-gap and ref-gap positions. -/
theorem success_length_accounting (ga : List Char → List Char → Int)
    (orig : List Char) (sc : Int) (nmm nrdg nrfg maxAttempts : Nat)
    (cs : Bool) (g : RNG) (fuel : Nat) (s : List Char)
    (hrd : nrdg ≤ orig.length) (hrf : nrfg ≤ orig.length - 1)
    (h : addEdits ga orig sc nmm nrdg nrfg maxAttempts cs g fuel =
      some (s, true)) :
    s.length = orig.length - nrdg + nrfg :=
  addEditsGo_length ga orig sc nmm nrdg nrfg fuel cs hrd hrf maxAttempts g s h

theorem success_length_accounting_witness :
    ((1 : Nat) ≤ (['A', 'C', 'G', 'T'] : List Char).length ∧
      (1 : Nat) ≤ (['A', 'C', 'G', 'T'] : List Char).length - 1 ∧
      addEdits (fun _ _ => 0) ['A', 'C', 'G', 'T'] 0 1 1 1 1 false
        ⟨fun i => i, 0⟩ 4 = some (['T', 'G', 'A', 'T'], true)) ∧
    (['T', 'G', 'A', 'T'] : List Char).length =
      (['A', 'C', 'G', 'T'] : List Char).length - 1 + 1 :=
  ⟨⟨by decide, by decide, by decide⟩,
    success_length_accounting (fun _ _ => 0) ['A', 'C', 'G', 'T'] 0 1 1 1 1
      false ⟨fun i => i, 0⟩ 4 ['T', 'G', 'A', 'T'] (by decide) (by decide)
      (by decide)⟩

end Sens
